import Mathlib

/-!
The header `vw/Camera/CameraTransform.h`.

A shallow embedding of the camera-to-camera coordinate functor
`vw::camera::CameraTransform` and of the convenience functions
`camera_transform` and `linearize_camera_transform`.

Scalars are taken from an arbitrary type `R` with exact arithmetic (the
examples use `ℤ` and `ℚ`), so a vector comparison is plain equality and
vector addition is componentwise.
-/

namespace vw

/-- Modelled from the spec: a pixel location, `vw::Vector2` (the vector
classes of `vw/Math/Vector.h` are not part of this file). -/
structure Vector2 (R : Type) where
  x : R
  y : R
deriving DecidableEq, Repr

/-- Modelled from the spec: a 3-dimensional point or direction,
`vw::Vector3` (the vector classes of `vw/Math/Vector.h` are not part of this
file). -/
structure Vector3 (R : Type) where
  x : R
  y : R
  z : R
deriving DecidableEq, Repr

namespace Vector3

variable {R : Type}

/-- Modelled from the spec: `operator+` on `Vector3`, componentwise. -/
def add [Add R] (a b : Vector3 R) : Vector3 R :=
  ⟨a.x + b.x, a.y + b.y, a.z + b.z⟩

instance [Add R] : Add (Vector3 R) := ⟨add⟩

/-- Modelled from the spec: a scalar multiple `t * v` of a direction. -/
def smul [Mul R] (t : R) (v : Vector3 R) : Vector3 R :=
  ⟨t * v.x, t * v.y, t * v.z⟩

instance [Mul R] : SMul R (Vector3 R) := ⟨smul⟩

end Vector3

namespace camera

/-- Modelled from the spec: the camera-model capability of section 6, the
three operations that the template parameters `SrcCameraT` and `DstCameraT`
must provide. Each operation is a total function of its argument. -/
structure CameraModel (R : Type) where
  pixel_to_vector : Vector2 R → Vector3 R
  point_to_pixel : Vector3 R → Vector2 R
  camera_center : Vector2 R → Vector3 R

/-- Modelled from the spec: the exception raised on a violated precondition,
`vw::LogicErr`, carrying its message (`vw/Core/Exception.h` is not part of
this file). -/
inductive Exception where
  | LogicErr (msg : String)
deriving DecidableEq, Repr

/-- Modelled from the spec: the macro `VW_ASSERT(cond, excep)` of
`vw/Core/Exception.h`, which throws `excep` when `cond` is false and does
nothing otherwise. -/
def VW_ASSERT (cond : Bool) (excep : Exception) : Except Exception Unit :=
  if cond then .ok () else .error excep

/-- The functor's two data members. -/
structure CameraTransform (R : Type) where
  m_src_camera : CameraModel R
  m_dst_camera : CameraModel R

/-- The exception both `reverse` and `forward` stream into `LogicErr()`. -/
def centerMismatch : Exception :=
  .LogicErr "CameraTransformFunctor: Camera transformation require that the camera center is always the same for both cameras."

namespace CameraTransform

variable {R : Type} [DecidableEq R] [Add R]

/-- `CameraTransform::reverse`, lines 57-68. -/
def reverse (self : CameraTransform R) (p : Vector2 R) : Except Exception (Vector2 R) := do
  VW_ASSERT (self.m_src_camera.camera_center p == self.m_dst_camera.camera_center p)
    centerMismatch
  let vec := self.m_dst_camera.pixel_to_vector p
  return self.m_src_camera.point_to_pixel (vec + self.m_src_camera.camera_center p)

/-- `CameraTransform::forward`, lines 72-83. -/
def forward (self : CameraTransform R) (p : Vector2 R) : Except Exception (Vector2 R) := do
  VW_ASSERT (self.m_src_camera.camera_center p == self.m_dst_camera.camera_center p)
    centerMismatch
  let vec := self.m_src_camera.pixel_to_vector p
  return self.m_dst_camera.point_to_pixel (vec + self.m_dst_camera.camera_center p)

end CameraTransform

/-! ## The convenience functions -/

/-- Modelled from the spec: the collaborators of section 6 that the
convenience functions call and that are declared outside this file: the
generic engine `transform` of `vw/Image/Transform.h`, the factory
`linearize_camera`, the image extents `cols()` and `rows()`, and the
default-constructed policies `ZeroEdgeExtension()` and
`BilinearInterpolation()`. Each is an arbitrary function or value. -/
structure Engine (R ImageT EdgeT InterpT ViewT : Type) where
  cols : ImageT → ℕ
  rows : ImageT → ℕ
  transform : ImageT → CameraTransform R → EdgeT → InterpT → ViewT
  linearize_camera : CameraModel R → ℕ → ℕ → ℕ → ℕ → CameraModel R
  ZeroEdgeExtension : EdgeT
  BilinearInterpolation : InterpT

section Convenience

variable {R ImageT EdgeT InterpT ViewT : Type}

/-- `camera_transform` with both policies given, lines 93-99. -/
def camera_transform (E : Engine R ImageT EdgeT InterpT ViewT) (image : ImageT)
    (src_camera dst_camera : CameraModel R) (edge_func : EdgeT) (interp_func : InterpT) :
    ViewT :=
  let ctx : CameraTransform R := ⟨src_camera, dst_camera⟩
  E.transform image ctx edge_func interp_func

/-- `camera_transform` with the edge extension given, lines 104-110. -/
def camera_transform4 (E : Engine R ImageT EdgeT InterpT ViewT) (image : ImageT)
    (src_camera dst_camera : CameraModel R) (edge_func : EdgeT) : ViewT :=
  let ctx : CameraTransform R := ⟨src_camera, dst_camera⟩
  E.transform image ctx edge_func E.BilinearInterpolation

/-- `camera_transform` with no policy given, lines 114-120. -/
def camera_transform3 (E : Engine R ImageT EdgeT InterpT ViewT) (image : ImageT)
    (src_camera dst_camera : CameraModel R) : ViewT :=
  let ctx : CameraTransform R := ⟨src_camera, dst_camera⟩
  E.transform image ctx E.ZeroEdgeExtension E.BilinearInterpolation

/-- `linearize_camera_transform` with both policies given, lines 125-132. -/
def linearize_camera_transform (E : Engine R ImageT EdgeT InterpT ViewT) (image : ImageT)
    (src_camera : CameraModel R) (edge_func : EdgeT) (interp_func : InterpT) : ViewT :=
  let dst_camera := E.linearize_camera src_camera (E.cols image) (E.rows image)
    (E.cols image) (E.rows image)
  let ctx : CameraTransform R := ⟨src_camera, dst_camera⟩
  E.transform image ctx edge_func interp_func

/-- `linearize_camera_transform` with the edge extension given, lines 137-144. -/
def linearize_camera_transform3 (E : Engine R ImageT EdgeT InterpT ViewT) (image : ImageT)
    (src_camera : CameraModel R) (edge_func : EdgeT) : ViewT :=
  let dst_camera := E.linearize_camera src_camera (E.cols image) (E.rows image)
    (E.cols image) (E.rows image)
  let ctx : CameraTransform R := ⟨src_camera, dst_camera⟩
  E.transform image ctx edge_func E.BilinearInterpolation

/-- `linearize_camera_transform` with no policy given, lines 149-156. -/
def linearize_camera_transform2 (E : Engine R ImageT EdgeT InterpT ViewT) (image : ImageT)
    (src_camera : CameraModel R) : ViewT :=
  let dst_camera := E.linearize_camera src_camera (E.cols image) (E.rows image)
    (E.cols image) (E.rows image)
  let ctx : CameraTransform R := ⟨src_camera, dst_camera⟩
  E.transform image ctx E.ZeroEdgeExtension E.BilinearInterpolation

end Convenience

/-! ## The resampling engine -/

/-- Modelled from the spec: an image of `cols` by `rows` single-channel pixels
with exact values; `pixel` is read at in-bounds locations only. -/
structure ImageView (R : Type) where
  cols : ℕ
  rows : ℕ
  pixel : ℕ → ℕ → R

/-- An edge-extension policy: the value of the image at any integer location. -/
abbrev EdgeExtension (R : Type) := ImageView R → ℤ → ℤ → R

/-- An interpolation policy: the value of an integer-indexed view at a real
location. -/
abbrev Interpolation (R : Type) := (ℤ → ℤ → R) → R → R → R

/-- Modelled from the spec: zero-fill edge extension (`vw/Image/EdgeExtension.h`
is not part of this file): the image's own pixel inside
`[0, cols) x [0, rows)` and zero at every other location. -/
def ZeroEdgeExtension {R : Type} [Zero R] : EdgeExtension R := fun view i j =>
  if 0 ≤ i ∧ 0 ≤ j ∧ i < view.cols ∧ j < view.rows then view.pixel i.toNat j.toNat else 0

/-- Modelled from the spec: bilinear interpolation (`vw/Image/Interpolation.h`
is not part of this file): the four pixels around the location, weighted by
the products of the fractional offsets. -/
def BilinearInterpolation {R : Type} [LinearOrderedField R] [FloorRing R] :
    Interpolation R := fun view i j =>
  let x : ℤ := ⌊i⌋
  let y : ℤ := ⌊j⌋
  let normx : R := i - x
  let normy : R := j - y
  let s0 := (1 - normx) * (1 - normy)
  let s1 := normx * (1 - normy)
  let s2 := (1 - normx) * normy
  let s3 := normx * normy
  view x y * s0 + view (x + 1) y * s1 + view x (y + 1) * s2 + view (x + 1) (y + 1) * s3

/-- Modelled from the spec: the engine `transform` of `vw/Image/Transform.h`,
which is not part of this file. The view it returns has the nesting that the
return type of `camera_transform` spells out,
`TransformView<InterpolationView<EdgeExtensionView<ImageT, EdgeT>, InterpT>, ...>`:
the value at an output pixel is the interpolated, edge-extended image read at
the location that `reverse` gives, and an exception of `reverse` passes
through. -/
def transform {R : Type} [DecidableEq R] [Add R] (image : ImageView R)
    (ctx : CameraTransform R) (edge_func : EdgeExtension R) (interp_func : Interpolation R) :
    Vector2 R → Except Exception R := fun q => do
  let pt ← ctx.reverse q
  return interp_func (edge_func image) pt.x pt.y

/-- An integer camera whose centre is the origin at every pixel. -/
def shiftCam (k : ℤ) : CameraModel ℤ where
  pixel_to_vector p := ⟨p.x, p.y, 1⟩
  point_to_pixel P := ⟨P.x + k * P.z, P.y⟩
  camera_center _ := ⟨0, 0, 0⟩

/-- An integer camera whose centre moves with the pixel column. -/
def sweepCam (k : ℤ) : CameraModel ℤ where
  pixel_to_vector p := ⟨0, p.y, 1⟩
  point_to_pixel P := ⟨P.x, P.y⟩
  camera_center p := ⟨k * p.x, 0, 0⟩

/-- A central perspective camera of focal length `f` and principal point
`(cx, cy)`, with its centre at the origin at every pixel. -/
def pinhole {R : Type} [Field R] (f cx cy : R) : CameraModel R where
  pixel_to_vector p := ⟨p.x - cx, p.y - cy, f⟩
  point_to_pixel P := ⟨f * P.x / P.z + cx, f * P.y / P.z + cy⟩
  camera_center _ := ⟨0, 0, 0⟩

/-- The directions in front of a pinhole camera. -/
def inFront {R : Type} [LT R] [Zero R] (v : Vector3 R) : Prop := 0 < v.z

theorem Vector3.add_def {R : Type} [Add R] (a b : Vector3 R) :
    a + b = ⟨a.x + b.x, a.y + b.y, a.z + b.z⟩ := rfl

theorem Vector3.smul_def {R : Type} [Mul R] (t : R) (v : Vector3 R) :
    t • v = ⟨t * v.x, t * v.y, t * v.z⟩ := rfl

theorem Vector3.vadd_comm {R : Type} [AddCommMagma R] (a b : Vector3 R) : a + b = b + a := by
  simp only [Vector3.add_def, add_comm]

/-! ## The functor -/

section Functor

variable {R : Type} [DecidableEq R] [Add R]

theorem reverse_of_eq (src dst : CameraModel R) (p : Vector2 R)
    (h : src.camera_center p = dst.camera_center p) :
    (CameraTransform.mk src dst).reverse p
      = .ok (src.point_to_pixel (dst.pixel_to_vector p + src.camera_center p)) := by
  simp [CameraTransform.reverse, VW_ASSERT, h]

theorem reverse_of_ne (src dst : CameraModel R) (p : Vector2 R)
    (h : src.camera_center p ≠ dst.camera_center p) :
    (CameraTransform.mk src dst).reverse p = .error centerMismatch := by
  simp [CameraTransform.reverse, VW_ASSERT, h]

theorem forward_of_eq (src dst : CameraModel R) (p : Vector2 R)
    (h : src.camera_center p = dst.camera_center p) :
    (CameraTransform.mk src dst).forward p
      = .ok (dst.point_to_pixel (src.pixel_to_vector p + dst.camera_center p)) := by
  simp [CameraTransform.forward, VW_ASSERT, h]

theorem forward_of_ne (src dst : CameraModel R) (p : Vector2 R)
    (h : src.camera_center p ≠ dst.camera_center p) :
    (CameraTransform.mk src dst).forward p = .error centerMismatch := by
  simp [CameraTransform.forward, VW_ASSERT, h]

end Functor

/-- C1: when the two centres agree at `p`, `reverse p` succeeds and returns
the source projection of the destination direction at `p` offset by the source
centre at `p`. -/
theorem reverse_spec {R : Type} [DecidableEq R] [Add R] (src dst : CameraModel R)
    (p : Vector2 R) (h : src.camera_center p = dst.camera_center p) :
    (CameraTransform.mk src dst).reverse p
      = .ok (src.point_to_pixel (dst.pixel_to_vector p + src.camera_center p)) :=
  reverse_of_eq src dst p h

theorem reverse_spec_witness :
    (sweepCam 2).camera_center ⟨0, 5⟩ = (shiftCam 3).camera_center ⟨0, 5⟩ ∧
    (CameraTransform.mk (sweepCam 2) (shiftCam 3)).reverse ⟨0, 5⟩
      = .ok ((sweepCam 2).point_to_pixel
          ((shiftCam 3).pixel_to_vector ⟨0, 5⟩ + (sweepCam 2).camera_center ⟨0, 5⟩)) :=
  ⟨by decide, reverse_spec (sweepCam 2) (shiftCam 3) ⟨0, 5⟩ (by decide)⟩

/-- C2: when the two centres agree at `p`, `forward p` succeeds and returns
the destination projection of the source direction at `p` offset by the
destination centre at `p`. -/
theorem forward_spec {R : Type} [DecidableEq R] [Add R] (src dst : CameraModel R)
    (p : Vector2 R) (h : src.camera_center p = dst.camera_center p) :
    (CameraTransform.mk src dst).forward p
      = .ok (dst.point_to_pixel (src.pixel_to_vector p + dst.camera_center p)) :=
  forward_of_eq src dst p h

theorem forward_spec_witness :
    (sweepCam 2).camera_center ⟨0, 5⟩ = (shiftCam 3).camera_center ⟨0, 5⟩ ∧
    (CameraTransform.mk (sweepCam 2) (shiftCam 3)).forward ⟨0, 5⟩
      = .ok ((shiftCam 3).point_to_pixel
          ((sweepCam 2).pixel_to_vector ⟨0, 5⟩ + (shiftCam 3).camera_center ⟨0, 5⟩)) :=
  ⟨by decide, forward_spec (sweepCam 2) (shiftCam 3) ⟨0, 5⟩ (by decide)⟩

/-- C3: `forward p` and `reverse p` raise the centre-mismatch error exactly
when the two centres differ at `p`; that error is the only one either call can
end in, a call that raises returns no pixel, and a pixel at which the centres
agree yields a pixel whatever the models do elsewhere. -/
theorem mismatch_detection {R : Type} [DecidableEq R] [Add R] (A B : CameraModel R)
    (p : Vector2 R) :
    ((CameraTransform.mk A B).forward p = .error centerMismatch
        ↔ A.camera_center p ≠ B.camera_center p) ∧
    ((CameraTransform.mk A B).reverse p = .error centerMismatch
        ↔ A.camera_center p ≠ B.camera_center p) ∧
    (∀ e, (CameraTransform.mk A B).forward p = .error e → e = centerMismatch) ∧
    (∀ e, (CameraTransform.mk A B).reverse p = .error e → e = centerMismatch) ∧
    (A.camera_center p ≠ B.camera_center p →
      (∀ q, (CameraTransform.mk A B).forward p ≠ .ok q) ∧
      (∀ q, (CameraTransform.mk A B).reverse p ≠ .ok q)) ∧
    (A.camera_center p = B.camera_center p →
      (∃ q, (CameraTransform.mk A B).forward p = .ok q) ∧
      (∃ q, (CameraTransform.mk A B).reverse p = .ok q)) := by
  by_cases h : A.camera_center p = B.camera_center p
  · have hf := forward_of_eq A B p h
    have hr := reverse_of_eq A B p h
    refine ⟨?_, ?_, ?_, ?_, ?_, ?_⟩
    · rw [hf]; simp [h]
    · rw [hr]; simp [h]
    · intro e he; rw [hf] at he; cases he
    · intro e he; rw [hr] at he; cases he
    · intro hne; exact absurd h hne
    · intro _; exact ⟨⟨_, hf⟩, ⟨_, hr⟩⟩
  · have hf := forward_of_ne A B p h
    have hr := reverse_of_ne A B p h
    refine ⟨?_, ?_, ?_, ?_, ?_, ?_⟩
    · rw [hf]; simp [h]
    · rw [hr]; simp [h]
    · intro e he; rw [hf] at he; cases he; rfl
    · intro e he; rw [hr] at he; cases he; rfl
    · intro _
      refine ⟨fun q hq => ?_, fun q hq => ?_⟩
      · rw [hf] at hq; cases hq
      · rw [hr] at hq; cases hq
    · intro heq; exact absurd heq h

theorem mismatch_detection_witness :
    ((sweepCam 2).camera_center ⟨1, 5⟩ ≠ (shiftCam 3).camera_center ⟨1, 5⟩ ∧
      (CameraTransform.mk (sweepCam 2) (shiftCam 3)).forward ⟨1, 5⟩ = .error centerMismatch ∧
      (CameraTransform.mk (sweepCam 2) (shiftCam 3)).reverse ⟨1, 5⟩ = .error centerMismatch) ∧
    ((sweepCam 2).camera_center ⟨0, 5⟩ = (shiftCam 3).camera_center ⟨0, 5⟩ ∧
      (∃ q, (CameraTransform.mk (sweepCam 2) (shiftCam 3)).forward ⟨0, 5⟩ = .ok q) ∧
      (∃ q, (CameraTransform.mk (sweepCam 2) (shiftCam 3)).reverse ⟨0, 5⟩ = .ok q)) :=
  ⟨⟨by decide,
    (mismatch_detection (sweepCam 2) (shiftCam 3) ⟨1, 5⟩).1.mpr (by decide),
    (mismatch_detection (sweepCam 2) (shiftCam 3) ⟨1, 5⟩).2.1.mpr (by decide)⟩,
   ⟨by decide,
    (mismatch_detection (sweepCam 2) (shiftCam 3) ⟨0, 5⟩).2.2.2.2.2 (by decide)⟩⟩

/-- C9: `forward` of the functor built from `(A, B)` has the same outcome as
`reverse` of the functor built from `(B, A)`, and `reverse` of the first the
same outcome as `forward` of the second. -/
theorem role_swap {R : Type} [DecidableEq R] [Add R] (A B : CameraModel R) (p : Vector2 R) :
    (CameraTransform.mk A B).forward p = (CameraTransform.mk B A).reverse p ∧
    (CameraTransform.mk A B).reverse p = (CameraTransform.mk B A).forward p := by
  by_cases h : A.camera_center p = B.camera_center p
  · exact ⟨by rw [forward_of_eq A B p h, reverse_of_eq B A p h.symm],
      by rw [reverse_of_eq A B p h, forward_of_eq B A p h.symm]⟩
  · exact ⟨by rw [forward_of_ne A B p h, reverse_of_ne B A p (Ne.symm h)],
      by rw [reverse_of_ne A B p h, forward_of_ne B A p (Ne.symm h)]⟩

/-- C10: a successful `reverse p` is the source projection of the point one
direction along the destination ray from the destination centre at `p`, and a
successful `forward p` is the destination projection of the point one direction
along the source ray from the source centre at `p`; on a successful call
either model's centre may be the one added. -/
theorem ray_anchoring {R : Type} [DecidableEq R] [AddCommMagma R] (src dst : CameraModel R)
    (p : Vector2 R) :
    (∀ q, (CameraTransform.mk src dst).reverse p = .ok q →
      q = src.point_to_pixel (dst.camera_center p + dst.pixel_to_vector p) ∧
      q = src.point_to_pixel (dst.pixel_to_vector p + dst.camera_center p) ∧
      q = src.point_to_pixel (dst.pixel_to_vector p + src.camera_center p)) ∧
    (∀ q, (CameraTransform.mk src dst).forward p = .ok q →
      q = dst.point_to_pixel (src.camera_center p + src.pixel_to_vector p) ∧
      q = dst.point_to_pixel (src.pixel_to_vector p + src.camera_center p) ∧
      q = dst.point_to_pixel (src.pixel_to_vector p + dst.camera_center p)) := by
  by_cases h : src.camera_center p = dst.camera_center p
  · constructor
    · intro q hq
      rw [reverse_of_eq src dst p h] at hq
      cases hq
      refine ⟨?_, ?_, rfl⟩
      · rw [h, Vector3.vadd_comm]
      · rw [h]
    · intro q hq
      rw [forward_of_eq src dst p h] at hq
      cases hq
      refine ⟨?_, ?_, rfl⟩
      · rw [← h, Vector3.vadd_comm]
      · rw [← h]
  · constructor
    · intro q hq
      rw [reverse_of_ne src dst p h] at hq
      cases hq
    · intro q hq
      rw [forward_of_ne src dst p h] at hq
      cases hq

theorem ray_anchoring_witness :
    (CameraTransform.mk (sweepCam 2) (shiftCam 3)).reverse ⟨0, 5⟩ = .ok ⟨0, 5⟩ ∧
    (⟨0, 5⟩ : Vector2 ℤ) = (sweepCam 2).point_to_pixel
      ((shiftCam 3).camera_center ⟨0, 5⟩ + (shiftCam 3).pixel_to_vector ⟨0, 5⟩) ∧
    (CameraTransform.mk (sweepCam 2) (shiftCam 3)).forward ⟨0, 5⟩ = .ok ⟨3, 5⟩ ∧
    (⟨3, 5⟩ : Vector2 ℤ) = (shiftCam 3).point_to_pixel
      ((sweepCam 2).camera_center ⟨0, 5⟩ + (sweepCam 2).pixel_to_vector ⟨0, 5⟩) :=
  ⟨rfl, ((ray_anchoring (sweepCam 2) (shiftCam 3) ⟨0, 5⟩).1 _ rfl).1,
   rfl, ((ray_anchoring (sweepCam 2) (shiftCam 3) ⟨0, 5⟩).2 _ rfl).1⟩

/-! ## Pinhole cameras -/

theorem pinhole_ray {R : Type} [LinearOrderedField R] (f cx cy : R) (hf : 0 < f)
    (q : Vector2 R) (t : R) (ht : 0 < t) :
    (pinhole f cx cy).point_to_pixel
      ((⟨0, 0, 0⟩ : Vector3 R) + t • (pinhole f cx cy).pixel_to_vector q) = q := by
  have hf0 : f ≠ 0 := ne_of_gt hf
  have ht0 : t ≠ 0 := ne_of_gt ht
  cases q with
  | mk qx qy =>
    simp only [pinhole, Vector3.add_def, Vector3.smul_def, zero_add]
    congr 1 <;> field_simp <;> ring

theorem pinhole_fov {R : Type} [LinearOrderedField R] (f cx cy : R) (hf : 0 < f)
    (v : Vector3 R) (hv : inFront v) :
    ∃ s : R, 0 < s ∧
      (pinhole f cx cy).pixel_to_vector
        ((pinhole f cx cy).point_to_pixel ((⟨0, 0, 0⟩ : Vector3 R) + v)) = s • v := by
  have hz : 0 < v.z := hv
  have hz0 : v.z ≠ 0 := ne_of_gt hz
  refine ⟨f / v.z, div_pos hf hz, ?_⟩
  cases v with
  | mk vx vy vz =>
    simp only [pinhole, Vector3.add_def, Vector3.smul_def, zero_add, add_sub_cancel_right]
    simp only at hz0
    congr 1
    · field_simp
    · field_simp
    · field_simp

/-! ## Inverse and identity -/

/-- C4: for two models with the same centre `c` at every pixel, each of which
projects every point `c + t * pixel_to_vector q` with `t > 0` back to `q` and
turns the pixel of `c + v` into a positive multiple of `v` for `v` in its field
of view, `reverse` undoes `forward` at every pixel whose source direction lies
in the destination field of view and `forward` undoes `reverse` at every pixel
whose destination direction lies in the source field of view; no call
raises. -/
theorem forward_reverse_inverse {R : Type} [LinearOrderedField R] (A B : CameraModel R)
    (c : Vector3 R) (fovA fovB : Vector3 R → Prop)
    (hcA : ∀ q, A.camera_center q = c) (hcB : ∀ q, B.camera_center q = c)
    (hA1 : ∀ (q : Vector2 R) (t : R), 0 < t → A.point_to_pixel (c + t • A.pixel_to_vector q) = q)
    (hB1 : ∀ (q : Vector2 R) (t : R), 0 < t → B.point_to_pixel (c + t • B.pixel_to_vector q) = q)
    (hA2 : ∀ v, fovA v → ∃ s : R, 0 < s ∧ A.pixel_to_vector (A.point_to_pixel (c + v)) = s • v)
    (hB2 : ∀ v, fovB v → ∃ s : R, 0 < s ∧ B.pixel_to_vector (B.point_to_pixel (c + v)) = s • v)
    (p : Vector2 R) :
    (fovB (A.pixel_to_vector p) →
      ∃ q, (CameraTransform.mk A B).forward p = .ok q ∧
        (CameraTransform.mk A B).reverse q = .ok p) ∧
    (fovA (B.pixel_to_vector p) →
      ∃ q, (CameraTransform.mk A B).reverse p = .ok q ∧
        (CameraTransform.mk A B).forward q = .ok p) := by
  have hshare : ∀ q, A.camera_center q = B.camera_center q := fun q => by rw [hcA, hcB]
  constructor
  · intro hp
    obtain ⟨s, hs, hsv⟩ := hB2 _ hp
    refine ⟨_, forward_of_eq A B p (hshare p), ?_⟩
    rw [reverse_of_eq A B _ (hshare _), hcB, hcA, Vector3.vadd_comm (A.pixel_to_vector p) c,
      hsv, Vector3.vadd_comm, hA1 p s hs]
  · intro hp
    obtain ⟨s, hs, hsv⟩ := hA2 _ hp
    refine ⟨_, reverse_of_eq A B p (hshare p), ?_⟩
    rw [forward_of_eq A B _ (hshare _), hcA, hcB, Vector3.vadd_comm (B.pixel_to_vector p) c,
      hsv, Vector3.vadd_comm, hB1 p s hs]

theorem forward_reverse_inverse_witness :
    (∃ q, (CameraTransform.mk (pinhole (1 : ℚ) 0 0) (pinhole 2 3 4)).forward ⟨5, 6⟩ = .ok q ∧
      (CameraTransform.mk (pinhole (1 : ℚ) 0 0) (pinhole 2 3 4)).reverse q = .ok ⟨5, 6⟩) ∧
    (∃ q, (CameraTransform.mk (pinhole (1 : ℚ) 0 0) (pinhole 2 3 4)).reverse ⟨5, 6⟩ = .ok q ∧
      (CameraTransform.mk (pinhole (1 : ℚ) 0 0) (pinhole 2 3 4)).forward q = .ok ⟨5, 6⟩) :=
  have h := forward_reverse_inverse (pinhole (1 : ℚ) 0 0) (pinhole 2 3 4) ⟨0, 0, 0⟩
    inFront inFront (fun _ => rfl) (fun _ => rfl)
    (fun q t ht => pinhole_ray 1 0 0 (by norm_num) q t ht)
    (fun q t ht => pinhole_ray 2 3 4 (by norm_num) q t ht)
    (fun v hv => pinhole_fov 1 0 0 (by norm_num) v hv)
    (fun v hv => pinhole_fov 2 3 4 (by norm_num) v hv)
    ⟨5, 6⟩
  ⟨h.1 (by simp [inFront, pinhole]), h.2 (by simp [inFront, pinhole])⟩

/-- C6: the overload of `camera_transform` without policies equals the full
one at `ZeroEdgeExtension` and `BilinearInterpolation`, the overload with an
edge extension equals the full one at `BilinearInterpolation`, and each of the
three hands the engine the image it was given and the functor built from the
source model first and the destination model second. -/
theorem camera_transform_defaults {R ImageT EdgeT InterpT ViewT : Type}
    (E : Engine R ImageT EdgeT InterpT ViewT) (image : ImageT) (src dst : CameraModel R)
    (e : EdgeT) (i : InterpT) :
    camera_transform3 E image src dst
      = camera_transform E image src dst E.ZeroEdgeExtension E.BilinearInterpolation ∧
    camera_transform4 E image src dst e
      = camera_transform E image src dst e E.BilinearInterpolation ∧
    camera_transform E image src dst e i = E.transform image ⟨src, dst⟩ e i ∧
    camera_transform4 E image src dst e
      = E.transform image ⟨src, dst⟩ e E.BilinearInterpolation ∧
    camera_transform3 E image src dst
      = E.transform image ⟨src, dst⟩ E.ZeroEdgeExtension E.BilinearInterpolation :=
  ⟨rfl, rfl, rfl, rfl, rfl⟩

/-- C7: `linearize_camera_transform` equals `camera_transform` from the source
model to the model that `linearize_camera` returns for the source model and
the image's own `cols`, `rows`, `cols`, `rows`; the overload with an edge
extension equals the full one at `BilinearInterpolation` and the overload
without policies the full one at `ZeroEdgeExtension` and
`BilinearInterpolation`. -/
theorem linearize_camera_transform_delegates {R ImageT EdgeT InterpT ViewT : Type}
    (E : Engine R ImageT EdgeT InterpT ViewT) (image : ImageT) (src : CameraModel R)
    (e : EdgeT) (i : InterpT) :
    linearize_camera_transform E image src e i
      = camera_transform E image src
          (E.linearize_camera src (E.cols image) (E.rows image) (E.cols image) (E.rows image))
          e i ∧
    linearize_camera_transform E image src e i
      = E.transform image
          ⟨src, E.linearize_camera src (E.cols image) (E.rows image) (E.cols image)
            (E.rows image)⟩ e i ∧
    linearize_camera_transform3 E image src e
      = linearize_camera_transform E image src e E.BilinearInterpolation ∧
    linearize_camera_transform2 E image src
      = linearize_camera_transform E image src E.ZeroEdgeExtension E.BilinearInterpolation :=
  ⟨rfl, rfl, rfl, rfl⟩

/-! ## Zero-fill edges under bilinear interpolation -/

end camera

end vw
